import Mathlib

/-!
Verification of the weewx NM150 driver (`bin/user/nm150.py`).

The development shallowly embeds the driver's frame extraction
(`NM150.get_wimda_packet`), its decode-and-convert loop
(`NM150.genLoopPackets`) and port shutdown (`NM150.closePort`) as pure
Lean functions over lists of characters, and proves or refutes the
specified properties about them.
-/

/-- The NUL character stripped from each serial chunk by
`chunk.strip('\x00')` in `get_wimda_packet`. -/
def nulChar : Char := Char.ofNat 0

/-- The literal start-of-sentence marker of the regular expression
`(\$WIMDA,.*)\n` used by `get_wimda_packet`. -/
def nmeaMarker : List Char := ['$', 'W', 'I', 'M', 'D', 'A', ',']

/-- Model of Python `s.strip('\x00')`: remove the maximal run of NUL
characters from the front and from the back of the string.  Interior
NUL characters are kept. -/
def stripNul (s : List Char) : List Char :=
  (((s.dropWhile (fun c => c == nulChar)).reverse.dropWhile
      (fun c => c == nulChar))).reverse

/-- Literal-pattern match at the head of a string, as the regex engine
checks the literal `\$WIMDA,` at one candidate position. -/
def startsWith : List Char → List Char → Bool
  | [], _ => true
  | _ :: _, [] => false
  | p :: ps, c :: cs => p == c && startsWith ps cs

/-- Model of matching `.*\n` at a position: the characters before the
first newline (the `.` of the regex never matches a newline), requiring
that newline to exist; `none` when the rest of the buffer has no
newline. -/
def takeLine : List Char → Option (List Char)
  | [] => none
  | c :: cs => if c = '\n' then some [] else (takeLine cs).map (fun t => c :: t)

/-- Attempt of the regex `(\$WIMDA,.*)\n` at the current position: the
literal marker must match here and a newline must follow; the captured
group is the marker together with the rest of that line. -/
def headMatch (s : List Char) : Option (List Char) :=
  if startsWith nmeaMarker s then
    (takeLine (s.drop 7)).map (fun t => nmeaMarker ++ t)
  else none

/-- Model of `re.search(r'(\$WIMDA,.*)\n', buf)` returning group 1:
scan positions left to right and return the first successful match. -/
def findFrame : List Char → Option (List Char)
  | [] => none
  | c :: cs =>
    match headMatch (c :: cs) with
    | some f => some f
    | none => findFrame cs

/-- Model of `get_wimda_packet`'s loop body applied to a list of serial
chunks: each chunk is NUL-stripped at both ends, appended to the local
buffer, and the buffer is searched; the first frame found is returned.
`none` models the code blocking forever waiting for more input. -/
def feedChunks (buf : List Char) : List (List Char) → Option (List Char)
  | [] => none
  | c :: cs =>
    match findFrame (buf ++ stripNul c) with
    | some f => some f
    | none => feedChunks (buf ++ stripNul c) cs

/-- Model of one full call of `get_wimda_packet`, with the unread
chunks of the serial stream as the only state that survives the call:
`buf` is a local variable, so on success the function returns the frame
and the not-yet-read chunks, discarding the rest of the local buffer. -/
def getWimdaPacket (buf : List Char) :
    List (List Char) → Option (List Char × List (List Char))
  | [] => none
  | c :: cs =>
    match findFrame (buf ++ stripNul c) with
    | some f => some (f, cs)
    | none => getWimdaPacket (buf ++ stripNul c) cs

theorem startsWith_append (p l q : List Char) (h : startsWith p l = true) :
    startsWith p (l ++ q) = true := by
  induction p generalizing l with
  | nil => simp [startsWith]
  | cons a ps ih =>
    cases l with
    | nil => simp [startsWith] at h
    | cons c cs =>
      simp only [startsWith, List.cons_append, Bool.and_eq_true] at h ⊢
      exact ⟨h.1, ih cs h.2⟩

theorem startsWith_length (p l : List Char) (h : startsWith p l = true) :
    p.length ≤ l.length := by
  induction p generalizing l with
  | nil => simp
  | cons a ps ih =>
    cases l with
    | nil => simp [startsWith] at h
    | cons c cs =>
      simp only [startsWith, Bool.and_eq_true] at h
      simpa using ih cs h.2

theorem startsWith_of_append (p l q : List Char) (hl : p.length ≤ l.length)
    (h : startsWith p (l ++ q) = true) : startsWith p l = true := by
  induction p generalizing l with
  | nil => simp [startsWith]
  | cons a ps ih =>
    cases l with
    | nil => simp at hl
    | cons c cs =>
      simp only [List.cons_append, startsWith, Bool.and_eq_true] at h ⊢
      exact ⟨h.1, ih cs (by simpa using hl) h.2⟩

theorem startsWith_self_append (p q : List Char) : startsWith p (p ++ q) = true := by
  induction p with
  | nil => simp [startsWith]
  | cons a ps ih => simp [startsWith, ih]

theorem takeLine_append (l q t : List Char) (h : takeLine l = some t) :
    takeLine (l ++ q) = some t := by
  induction l generalizing t with
  | nil => simp [takeLine] at h
  | cons c cs ih =>
    rw [List.cons_append]
    rw [takeLine] at h ⊢
    by_cases hc : c = '\n'
    · rw [if_pos hc] at h ⊢; exact h
    · rw [if_neg hc] at h ⊢
      cases ht : takeLine cs with
      | none => rw [ht] at h; simp at h
      | some t2 =>
        rw [ht] at h
        simp only [Option.map_some'] at h
        rw [ih t2 ht]
        simpa using h

theorem takeLine_newline_mem (l t : List Char) (h : takeLine l = some t) :
    '\n' ∈ l := by
  induction l generalizing t with
  | nil => simp [takeLine] at h
  | cons c cs ih =>
    rw [takeLine] at h
    by_cases hc : c = '\n'
    · simp [hc]
    · rw [if_neg hc] at h
      cases ht : takeLine cs with
      | none => rw [ht] at h; simp at h
      | some t2 => exact List.mem_cons_of_mem c (ih t2 ht)

theorem takeLine_none_not_mem (l : List Char) (h : takeLine l = none) :
    '\n' ∉ l := by
  induction l with
  | nil => simp
  | cons c cs ih =>
    rw [takeLine] at h
    by_cases hc : c = '\n'
    · rw [if_pos hc] at h; simp at h
    · rw [if_neg hc] at h
      cases ht : takeLine cs with
      | some t2 => rw [ht] at h; simp at h
      | none =>
        intro hmem
        rcases List.mem_cons.mp hmem with h1 | h1
        · exact hc h1.symm
        · exact ih ht h1

theorem takeLine_no_newline (l t : List Char) (h : takeLine l = some t) :
    '\n' ∉ t := by
  induction l generalizing t with
  | nil => simp [takeLine] at h
  | cons c cs ih =>
    rw [takeLine] at h
    by_cases hc : c = '\n'
    · rw [if_pos hc] at h
      simp only [Option.some.injEq] at h
      simp [← h]
    · rw [if_neg hc] at h
      cases ht : takeLine cs with
      | none => rw [ht] at h; simp at h
      | some t2 =>
        rw [ht] at h
        simp only [Option.map_some', Option.some.injEq] at h
        rw [← h]
        intro hmem
        rcases List.mem_cons.mp hmem with h1 | h1
        · exact hc h1.symm
        · exact ih t2 ht h1

theorem headMatch_some (s g : List Char) (h : headMatch s = some g) :
    startsWith nmeaMarker s = true ∧
      ∃ t, takeLine (s.drop 7) = some t ∧ g = nmeaMarker ++ t := by
  unfold headMatch at h
  by_cases hs : startsWith nmeaMarker s
  · rw [if_pos hs] at h
    cases ht : takeLine (s.drop 7) with
    | none => rw [ht] at h; simp at h
    | some t =>
      rw [ht] at h
      simp only [Option.map_some', Option.some.injEq] at h
      exact ⟨hs, t, rfl, h.symm⟩
  · rw [if_neg hs] at h; simp at h

theorem headMatch_append (l q g : List Char) (h : headMatch l = some g) :
    headMatch (l ++ q) = some g := by
  obtain ⟨hs, t, ht, rfl⟩ := headMatch_some l g h
  have hm7 : nmeaMarker.length = 7 := rfl
  have hlen : 7 ≤ l.length := hm7 ▸ startsWith_length nmeaMarker l hs
  unfold headMatch
  rw [if_pos (startsWith_append _ _ q hs)]
  rw [List.drop_append_of_le_length hlen]
  rw [takeLine_append _ q t ht]
  rfl

theorem findFrame_newline (l f : List Char) (h : findFrame l = some f) :
    '\n' ∈ l.drop 7 := by
  induction l with
  | nil => simp [findFrame] at h
  | cons c cs ih =>
    rw [findFrame] at h
    cases hm : headMatch (c :: cs) with
    | some g =>
      obtain ⟨hs, t, ht, rfl⟩ := headMatch_some _ _ hm
      exact takeLine_newline_mem _ _ ht
    | none =>
      rw [hm] at h
      have h2 := ih h
      have h3 : cs.drop 7 ⊆ cs.drop 6 := List.drop_subset_drop_left cs (by omega)
      have h4 : (c :: cs).drop 7 = cs.drop 6 := rfl
      rw [h4]
      exact h3 h2

theorem headMatch_stays_none (c : Char) (cs Q f : List Char)
    (hm : headMatch (c :: cs) = none) (hf : findFrame cs = some f) :
    headMatch (c :: cs ++ Q) = none := by
  unfold headMatch at hm ⊢
  by_cases hs : startsWith nmeaMarker (c :: cs)
  · rw [if_pos hs] at hm
    cases ht : takeLine ((c :: cs).drop 7) with
    | some t => rw [ht] at hm; simp at hm
    | none =>
      exfalso
      have h1 : '\n' ∈ cs.drop 7 := findFrame_newline cs f hf
      have h2 : cs.drop 7 ⊆ cs.drop 6 := List.drop_subset_drop_left cs (by omega)
      have h3 : (c :: cs).drop 7 = cs.drop 6 := rfl
      exact takeLine_none_not_mem _ ht (h3 ▸ h2 h1)
  · by_cases hs2 : startsWith nmeaMarker (c :: cs ++ Q)
    · exfalso
      by_cases hlen : 7 ≤ (c :: cs).length
      · have hm7 : nmeaMarker.length = 7 := rfl
        exact hs (startsWith_of_append _ _ Q (hm7 ▸ hlen) hs2)
      · have h1 : '\n' ∈ cs.drop 7 := findFrame_newline cs f hf
        have h5 : cs.drop 7 = [] := by
          apply List.drop_eq_nil_iff.mpr
          simp at hlen
          omega
        simp [h5] at h1
    · rw [if_neg hs2]

theorem findFrame_mono (P Q f : List Char) (h : findFrame P = some f) :
    findFrame (P ++ Q) = some f := by
  induction P with
  | nil => simp [findFrame] at h
  | cons c cs ih =>
    rw [findFrame] at h
    rw [List.cons_append, findFrame]
    cases hm : headMatch (c :: cs) with
    | some g =>
      rw [hm] at h
      have h2 := headMatch_append (c :: cs) Q g hm
      rw [List.cons_append] at h2
      rw [h2]
      exact h
    | none =>
      rw [hm] at h
      have h2 := headMatch_stays_none c cs Q f hm h
      rw [List.cons_append] at h2
      rw [h2]
      exact ih h

theorem dropWhile_nul_of_not_mem (l : List Char) (h : nulChar ∉ l) :
    l.dropWhile (fun c => c == nulChar) = l := by
  cases l with
  | nil => rfl
  | cons c cs =>
    have hc : c ≠ nulChar := fun k => h (by simp [k])
    rw [List.dropWhile_cons]
    simp [hc]

theorem stripNul_of_not_mem (s : List Char) (h : nulChar ∉ s) : stripNul s = s := by
  unfold stripNul
  rw [dropWhile_nul_of_not_mem s h]
  rw [dropWhile_nul_of_not_mem s.reverse (by simpa using h)]
  exact List.reverse_reverse s

theorem dropWhile_nul_replicate_append (a : ℕ) (l : List Char) :
    (List.replicate a nulChar ++ l).dropWhile (fun c => c == nulChar) =
      l.dropWhile (fun c => c == nulChar) := by
  induction a with
  | zero => simp
  | succ n ih => simp [List.replicate_succ, List.dropWhile_cons, ih]

theorem stripNul_pad (a b : ℕ) (d : List Char) (hd : nulChar ∉ d) :
    stripNul (List.replicate a nulChar ++ d ++ List.replicate b nulChar) = d := by
  unfold stripNul
  rw [List.append_assoc, dropWhile_nul_replicate_append]
  cases d with
  | nil =>
    have h0 : (List.replicate b nulChar).dropWhile (fun c => c == nulChar) = [] := by
      simp
    simp [h0]
  | cons e d' =>
    have he : e ≠ nulChar := fun k => hd (by simp [k])
    rw [List.cons_append, List.dropWhile_cons]
    simp only [he, beq_iff_eq, if_false]
    rw [show ((e :: (d' ++ List.replicate b nulChar)).reverse =
          List.replicate b nulChar ++ (e :: d').reverse) by simp]
    rw [dropWhile_nul_replicate_append]
    rw [dropWhile_nul_of_not_mem _ (fun k => hd (List.mem_reverse.mp k))]
    exact List.reverse_reverse _

theorem feedChunks_eq_findFrame (cs : List (List Char)) (buf : List Char)
    (hnul : ∀ c ∈ cs, nulChar ∉ c) (hbuf : findFrame buf = none) :
    feedChunks buf cs = findFrame (buf ++ cs.flatten) := by
  induction cs generalizing buf with
  | nil => simpa [feedChunks] using hbuf.symm
  | cons c cs ih =>
    have hc : nulChar ∉ c := hnul c (by simp)
    rw [feedChunks]
    rw [stripNul_of_not_mem c hc]
    rw [List.flatten_cons, ← List.append_assoc]
    cases hf : findFrame (buf ++ c) with
    | some f => exact (findFrame_mono _ _ f hf).symm
    | none => exact ih (buf ++ c) (fun x hx => hnul x (by simp [hx])) hf

/-- Claim C1 (corrected), counterexample: framing is not chunking-invariant.
The byte sequence "$WIMDA,a\x00b\n" fed as one chunk yields the frame
"$WIMDA,a\x00b" (the interior NUL survives `strip`), while fed split as
"$WIMDA,a\x00" then "b\n" it yields "$WIMDA,ab" (the NUL, now at a chunk
end, is stripped). -/
theorem framing_chunking_cex :
    ("$WIMDA,a\x00".toList ++ "b\n".toList = "$WIMDA,a\x00b\n".toList) ∧
      feedChunks [] ["$WIMDA,a\x00b\n".toList] ≠
        feedChunks [] ["$WIMDA,a\x00".toList, "b\n".toList] := by
  constructor
  · rfl
  · decide

/-- Claim C1 (amended): framing is chunking-invariant for byte sequences
containing no NUL byte — any two ways of splitting such a sequence into
chunks yield the same extracted frame.  (For sequences with NUL bytes
invariance fails, because NUL stripping is applied per chunk at the chunk
ends only.) -/
theorem framing_chunking_invariant_nul_free (s : List Char)
    (cs cs' : List (List Char)) (h : nulChar ∉ s)
    (h1 : cs.flatten = s) (h2 : cs'.flatten = s) :
    feedChunks [] cs = feedChunks [] cs' := by
  have key : ∀ ds : List (List Char), ds.flatten = s →
      feedChunks [] ds = findFrame s := by
    intro ds hds
    have hn : ∀ c ∈ ds, nulChar ∉ c := by
      intro c hcm hm
      exact h (hds ▸ List.mem_flatten_of_mem hcm hm)
    have hout := feedChunks_eq_findFrame ds [] hn (by rfl)
    simpa [hds] using hout
  rw [key cs h1, key cs' h2]

/-- Claim C1 witness: a concrete NUL-free sequence split two ways gives the
same frame. -/
theorem framing_chunking_invariant_nul_free_witness :
    feedChunks [] ["$WIMDA,1\n".toList] =
      feedChunks [] ["$WIM".toList, "DA,1\n".toList] :=
  framing_chunking_invariant_nul_free ("$WIMDA,1\n".toList)
    ["$WIMDA,1\n".toList] ["$WIM".toList, "DA,1\n".toList]
    (by decide) (by decide) (by decide)

theorem findFrame_of_headMatch (l f : List Char) (h : headMatch l = some f) :
    findFrame l = some f := by
  cases l with
  | nil => simp [headMatch, startsWith] at h
  | cons c cs => rw [findFrame, h]

theorem takeLine_terminator (p r : List Char) (hp : '\n' ∉ p) :
    takeLine (p ++ '\n' :: r) = some p := by
  induction p with
  | nil => simp [takeLine]
  | cons c cs ih =>
    rw [List.cons_append, takeLine]
    have hc : c ≠ '\n' := fun k => hp (by simp [k])
    rw [if_neg hc, ih (fun m => hp (List.mem_cons_of_mem c m))]
    rfl

/-- Claim C2 (corrected), counterexample: extraction does not remove NUL
bytes interspersed inside a frame.  Feeding the single chunk
"$WIMDA,a\x00b\n" yields the frame "$WIMDA,a\x00b", which still contains
the NUL byte, not the claimed NUL-free frame "$WIMDA,ab". -/
theorem nul_removal_cex :
    feedChunks [] ["$WIMDA,a\x00b\n".toList] = some ("$WIMDA,a\x00b".toList) ∧
      nulChar ∈ "$WIMDA,a\x00b".toList ∧
      feedChunks [] ["$WIMDA,a\x00b\n".toList] ≠ some ("$WIMDA,ab".toList) := by
  decide

/-- Claim C2 (amended): feeding a chunk appends it to the buffer with NUL
bytes stripped from the two ends of the chunk only.  For a chunk whose NUL
bytes all lie in its leading or trailing run, the stripped chunk is exactly
the NUL-free core, and extraction on that single chunk equals the frame
search on the core; NUL bytes strictly inside a chunk are retained. -/
theorem nul_stripped_at_chunk_ends (a b : ℕ) (d : List Char) (hd : nulChar ∉ d) :
    stripNul (List.replicate a nulChar ++ d ++ List.replicate b nulChar) = d ∧
      feedChunks [] [List.replicate a nulChar ++ d ++ List.replicate b nulChar] =
        findFrame d := by
  refine ⟨stripNul_pad a b d hd, ?_⟩
  rw [feedChunks, List.nil_append, stripNul_pad a b d hd]
  cases hf : findFrame d with
  | some f => rfl
  | none => rfl

/-- Claim C2 witness: a concrete chunk padded with NULs at both ends. -/
theorem nul_stripped_at_chunk_ends_witness :
    stripNul (List.replicate 2 nulChar ++ "$WIMDA,x\n".toList ++
        List.replicate 1 nulChar) = "$WIMDA,x\n".toList ∧
      feedChunks [] [List.replicate 2 nulChar ++ "$WIMDA,x\n".toList ++
        List.replicate 1 nulChar] = findFrame ("$WIMDA,x\n".toList) :=
  nul_stripped_at_chunk_ends 2 1 ("$WIMDA,x\n".toList) (by decide)

/-- Claim C3 (corrected), counterexample: bytes after the extracted frame's
terminator are not retained for the next extraction.  A single chunk
holding a first frame, then "XYZ", then a complete second frame, returns
the first frame with no unread chunks left, and the next extraction call
(starting from an empty buffer with nothing left to read) finds nothing —
the claimed retained remainder "XYZ$WIMDA,b\n" is gone. -/
theorem buffer_retention_cex :
    getWimdaPacket [] ["$WIMDA,a\nXYZ$WIMDA,b\n".toList] =
        some ("$WIMDA,a".toList, []) ∧
      getWimdaPacket [] ([] : List (List Char)) = none := by decide

/-- Claim C3 (amended): the buffer of `get_wimda_packet` is a local
variable, created empty at every call.  When a frame is found, the call
returns that frame together with only the chunks not yet read from the
port: every other byte of the accumulated buffer — before the marker,
inside the frame's chunk after the terminator — is discarded, and nothing
persists to the next call. -/
theorem getWimdaPacket_discards_buffer (c f : List Char) (rest : List (List Char))
    (h : findFrame (stripNul c) = some f) :
    getWimdaPacket [] (c :: rest) = some (f, rest) := by
  rw [getWimdaPacket, List.nil_append, h]

/-- Claim C3 witness: a concrete chunk with trailing bytes after the
terminator; they do not appear in the returned state. -/
theorem getWimdaPacket_discards_buffer_witness :
    getWimdaPacket [] ["$WIMDA,a\nXYZ".toList, "Q".toList] =
      some ("$WIMDA,a".toList, ["Q".toList]) :=
  getWimdaPacket_discards_buffer ("$WIMDA,a\nXYZ".toList) ("$WIMDA,a".toList)
    ["Q".toList] (by decide)

/-- Claim C4 (confirmed): first-marker policy.  For a buffer consisting of
noise (at none of whose positions the marker "$WIMDA," matches), then the
marker, then a newline-free payload, then the LF terminator and anything
after, extraction returns exactly the frame of the first complete
marker-to-terminator span, discarding all noise bytes before the marker. -/
theorem findFrame_first_marker (pre payload rest : List Char)
    (hnoise : ∀ i, i < pre.length →
      startsWith nmeaMarker
        ((pre ++ (nmeaMarker ++ (payload ++ '\n' :: rest))).drop i) = false)
    (hp : '\n' ∉ payload) :
    findFrame (pre ++ (nmeaMarker ++ (payload ++ '\n' :: rest))) =
      some (nmeaMarker ++ payload) := by
  induction pre with
  | nil =>
    rw [List.nil_append]
    apply findFrame_of_headMatch
    unfold headMatch
    rw [if_pos (startsWith_self_append nmeaMarker _)]
    rw [List.drop_left' (show nmeaMarker.length = 7 from rfl)]
    rw [takeLine_terminator payload rest hp]
    rfl
  | cons a pre' ih =>
    rw [List.cons_append]
    have h0 : headMatch
        (a :: (pre' ++ (nmeaMarker ++ (payload ++ '\n' :: rest)))) = none := by
      unfold headMatch
      have hz := hnoise 0 (by simp)
      rw [List.drop_zero, List.cons_append] at hz
      rw [hz]
      simp
    rw [findFrame, h0]
    apply ih
    intro i hi
    have hs := hnoise (i + 1) (by simpa using Nat.succ_lt_succ hi)
    rwa [List.cons_append, List.drop_succ_cons] at hs

/-- Claim C4 witness: the spec's example shape
"junk$$garbleWIMDA...$WIMDA,payload\n" — noise with a false-start marker —
extracts the span of the correctly matching marker. -/
theorem findFrame_first_marker_witness :
    findFrame ("junk$$garbleWIMDA...".toList ++ (nmeaMarker ++
        ("20.1,I".toList ++ '\n' :: []))) =
      some (nmeaMarker ++ "20.1,I".toList) :=
  findFrame_first_marker ("junk$$garbleWIMDA...".toList) ("20.1,I".toList) []
    (by decide) (by decide)

/-- Claim C5 (corrected), counterexample: with CRLF-terminated input
"$WIMDA,x\r\n" the returned frame is "$WIMDA,x\r": its first character is
the marker's '$' (not excluded) and its last character is the CR of the
terminator (not excluded), so it differs from the claimed "WIMDA,x". -/
theorem frame_boundaries_cex :
    findFrame ("$WIMDA,x\r\n".toList) = some ("$WIMDA,x\r".toList) ∧
      ("$WIMDA,x\r".toList).head? = some '$' ∧
      ("$WIMDA,x\r".toList).getLast? = some '\r' ∧
      "$WIMDA,x\r".toList ≠ "WIMDA,x".toList := by decide

/-- Claim C5 (amended): every frame returned by extraction starts with the
full "$WIMDA," marker — the leading '$' is included — and contains no LF,
so the LF of the terminator is excluded (while a CR preceding the LF, when
the wire terminator is CRLF, stays as the last character of the frame). -/
theorem findFrame_frame_shape (l f : List Char) (h : findFrame l = some f) :
    startsWith nmeaMarker f = true ∧ '\n' ∉ f := by
  induction l with
  | nil => simp [findFrame] at h
  | cons c cs ih =>
    rw [findFrame] at h
    cases hm : headMatch (c :: cs) with
    | some g =>
      rw [hm] at h
      simp only [Option.some.injEq] at h
      obtain ⟨hs, t, ht, hg⟩ := headMatch_some _ _ hm
      subst h
      subst hg
      refine ⟨startsWith_self_append nmeaMarker t, ?_⟩
      rw [List.mem_append]
      rintro (hin | hin)
      · simp [nmeaMarker] at hin
      · exact takeLine_no_newline _ _ ht hin
    | none =>
      rw [hm] at h
      exact ih h

/-- Claim C5 witness: the frame extracted from a concrete CRLF buffer has
the stated shape. -/
theorem findFrame_frame_shape_witness :
    startsWith nmeaMarker ("$WIMDA,x\r".toList) = true ∧
      '\n' ∉ "$WIMDA,x\r".toList :=
  findFrame_frame_shape ("zz$WIMDA,x\r\nqq".toList) ("$WIMDA,x\r".toList)
    (by decide)

/-- Comma split of a sentence into its field tokens, as `pynmea2` splits
the sentence body. -/
def splitOnComma : List Char → List (List Char)
  | [] => [[]]
  | c :: cs =>
    if c = ',' then [] :: splitOnComma cs
    else
      match splitOnComma cs with
      | [] => [[c]]
      | t :: ts => (c :: t) :: ts

/-- Digit run folded to a natural number; fails on a non-digit. -/
def parseDigitsAux (acc : ℕ) : List Char → Option ℕ
  | [] => some acc
  | c :: cs =>
    if c.isDigit then parseDigitsAux (acc * 10 + (c.toNat - 48)) cs else none

/-- A nonempty string of decimal digits; fails on the empty string or on
any non-digit character. -/
def parseDigits : List Char → Option ℕ
  | [] => none
  | c :: cs => parseDigitsAux 0 (c :: cs)

/-- Decimal numeral without sign: integer digits, optionally followed by a
point and fractional digits. -/
def parseUnsigned (s : List Char) : Option ℚ :=
  match s.span (fun c => c != '.') with
  | (intPart, []) => (parseDigits intPart).map (fun n => (n : ℚ))
  | (intPart, _ :: fracPart) =>
    match parseDigits intPart, parseDigits fracPart with
    | some n, some m => some ((n : ℚ) + (m : ℚ) / ((10 : ℚ) ^ fracPart.length))
    | _, _ => none

/-- Modelled from the spec: numeric parsing of one ASCII field token as the
host `float(...)` conversion performs it on the schema's decimal tokens —
an optional minus sign, then a decimal numeral; the empty token and
non-numeric tokens fail (the driver's `ValueError`). -/
def parseDecimal : List Char → Option ℚ
  | [] => none
  | '-' :: rest => (parseUnsigned rest).map (fun q => -q)
  | s => parseUnsigned s

/-- The five measurement quantities of one decoded WIMDA frame after unit
conversion: barometer in inHg, outTemp in °F, windSpeed in mph, windDir in
degrees true, outHumidity in percent. -/
structure MdaValues where
  barometer : ℚ
  outTemp : ℚ
  windSpeed : ℚ
  windDir : ℚ
  outHumidity : ℚ

deriving instance DecidableEq for MdaValues

/-- Modelled from the spec: Celsius to Fahrenheit conversion performed by
the host unit-conversion service (`weewx.units.convert` to `degree_F`). -/
def degCtoF (x : ℚ) : ℚ := x * 9 / 5 + 32

/-- Modelled from the spec: knots to miles-per-hour conversion performed by
the host unit-conversion service (`weewx.units.convert` to
`mile_per_hour`, linear factor 1.15077945). -/
def knotToMph (x : ℚ) : ℚ := x * (115077945 / 100000000)

/-- Modelled from the spec: the host's US unit-system constant stored in
the `usUnits` entry of every packet (`weewx.US`). -/
def weewxUS : ℤ := 1

/-- The sentence tag token standing before the first comma of an extracted
frame. -/
def wimdaTag : List Char := ['$', 'W', 'I', 'M', 'D', 'A']

/-- Modelled from the spec: decoding of one extracted frame as
`genLoopPackets` performs it through `pynmea2.parse` and `float(...)`.
The WIMDA schema places barometric pressure (inches Hg) at field 1, air
temperature (°C) at field 5, relative humidity (%) at field 9, true wind
direction (degrees) at field 13 and wind speed (knots) at field 17 of the
comma-split sentence; every required field must parse numerically or the
decode fails as a whole, and temperature and wind speed are
unit-converted. -/
def decodeWimda (frame : List Char) : Option MdaValues :=
  if (splitOnComma frame).get? 0 = some wimdaTag then
    match ((splitOnComma frame).get? 1).bind parseDecimal,
        ((splitOnComma frame).get? 5).bind parseDecimal,
        ((splitOnComma frame).get? 9).bind parseDecimal,
        ((splitOnComma frame).get? 13).bind parseDecimal,
        ((splitOnComma frame).get? 17).bind parseDecimal with
    | some p, some t, some h, some d, some w =>
      some ⟨p, degCtoF t, knotToMph w, d, h⟩
    | _, _, _, _, _ => none
  else none

/-- A value stored in a loop packet: an integer entry (unit system,
timestamp) or a floating-point measurement. -/
inductive PVal where
  | i (n : ℤ)
  | f (q : ℚ)

deriving instance DecidableEq for PVal

/-- The packet dictionary `genLoopPackets` builds, with its seven keys in
insertion order. -/
def mkLoopPacket (now : ℤ) (v : MdaValues) : List (String × PVal) :=
  [("usUnits", PVal.i weewxUS), ("dateTime", PVal.i now),
    ("barometer", PVal.f v.barometer), ("outTemp", PVal.f v.outTemp),
    ("windSpeed", PVal.f v.windSpeed), ("windDir", PVal.f v.windDir),
    ("outHumidity", PVal.f v.outHumidity)]

/-- One result of `serial_port.read(70)` inside the loop: a chunk of
bytes, or a raised `SerialException` (disconnect, device error). -/
inductive ReadEvent where
  | chunk (data : List Char)
  | serialError

deriving instance DecidableEq for ReadEvent

/-- Model of `genLoopPackets` driven by a finite list of read results:
chunks are accumulated as in `get_wimda_packet`; when a frame appears it is
decoded and, on success, a packet is yielded; a decode failure
(`ValueError`) or a `SerialException` is caught by the loop's `except`
clause, after which iteration continues with a fresh local buffer. -/
def genLoopAux (now : ℤ) (buf : List Char) :
    List ReadEvent → List (List (String × PVal))
  | [] => []
  | ReadEvent.serialError :: es => genLoopAux now [] es
  | ReadEvent.chunk c :: es =>
    match findFrame (buf ++ stripNul c) with
    | none => genLoopAux now (buf ++ stripNul c) es
    | some f =>
      match decodeWimda f with
      | none => genLoopAux now [] es
      | some v => mkLoopPacket now v :: genLoopAux now [] es

/-- Model of `NM150.closePort`: the state is the optional serial handle,
`none` standing for Python `None`; the Bool records whether `close()` was
invoked during the call. -/
def closePort {α : Type} : Option α → Option α × Bool
  | some _ => (none, true)
  | none => (none, false)

/-- The spec's schema-shaped example frame: pressure 29.92 inHg, air
temperature 20.0 °C, relative humidity 55.0 %, true wind direction 180.0°,
wind speed 10.0 knots. -/
def mdaFrameEx : List Char :=
  "$WIMDA,29.92,I,1.0132,B,20.0,C,,C,55.0,,,C,180.0,T,,M,10.0,N,,M".toList

/-- The example frame as it arrives on the wire, LF-terminated. -/
def wimdaChunkEx : List Char := mdaFrameEx ++ ['\n']

/-- The measurement values the driver derives from the example frame. -/
def mdaValuesEx : MdaValues := ⟨2992 / 100, degCtoF 20, knotToMph 10, 180, 55⟩

set_option maxRecDepth 8000 in
theorem parse_pressureEx : parseDecimal ("29.92".toList) = some (2992 / 100 : ℚ) := by
  with_unfolding_all rfl

set_option maxRecDepth 8000 in
theorem parse_tempEx : parseDecimal ("20.0".toList) = some (20 : ℚ) := by
  with_unfolding_all rfl

set_option maxRecDepth 8000 in
theorem parse_humEx : parseDecimal ("55.0".toList) = some (55 : ℚ) := by
  with_unfolding_all rfl

set_option maxRecDepth 8000 in
theorem parse_dirEx : parseDecimal ("180.0".toList) = some (180 : ℚ) := by
  with_unfolding_all rfl

set_option maxRecDepth 8000 in
theorem parse_speedEx : parseDecimal ("10.0".toList) = some (10 : ℚ) := by
  with_unfolding_all rfl

theorem decodeWimda_mdaFrameEx : decodeWimda mdaFrameEx = some mdaValuesEx := by
  unfold decodeWimda
  rw [if_pos (show (splitOnComma mdaFrameEx).get? 0 = some wimdaTag by decide)]
  rw [show (splitOnComma mdaFrameEx).get? 1 = some ("29.92".toList) by decide]
  rw [show (splitOnComma mdaFrameEx).get? 5 = some ("20.0".toList) by decide]
  rw [show (splitOnComma mdaFrameEx).get? 9 = some ("55.0".toList) by decide]
  rw [show (splitOnComma mdaFrameEx).get? 13 = some ("180.0".toList) by decide]
  rw [show (splitOnComma mdaFrameEx).get? 17 = some ("10.0".toList) by decide]
  simp only [Option.some_bind]
  rw [parse_pressureEx, parse_tempEx, parse_humEx, parse_dirEx, parse_speedEx]
  rfl

theorem genLoopAux_yield (now : ℤ) (buf c f : List Char) (es : List ReadEvent)
    (v : MdaValues) (hf : findFrame (buf ++ stripNul c) = some f)
    (hd : decodeWimda f = some v) :
    genLoopAux now buf (ReadEvent.chunk c :: es) =
      mkLoopPacket now v :: genLoopAux now [] es := by
  rw [genLoopAux, hf]
  show (match decodeWimda f with
    | none => genLoopAux now [] es
    | some w => mkLoopPacket now w :: genLoopAux now [] es) =
      mkLoopPacket now v :: genLoopAux now [] es
  rw [hd]

theorem genLoopAux_chunkEx (now : ℤ) :
    genLoopAux now [] [ReadEvent.chunk wimdaChunkEx] =
      [mkLoopPacket now mdaValuesEx] :=
  genLoopAux_yield now [] wimdaChunkEx mdaFrameEx [] mdaValuesEx (by decide)
    decodeWimda_mdaFrameEx

/-- Claim C6 (confirmed): decoding the schema-shaped frame carrying
pressure 29.92 inHg, air temperature 20.0 °C, humidity 55.0 %, true wind
direction 180.0° and wind speed 10.0 knots yields barometer 29.92, outTemp
68.0 °F, outHumidity 55.0, windDir 180.0 and windSpeed 11.5078 mph, each
within tolerance 1/1000: pressure, humidity and wind direction pass through
unchanged while temperature is converted °C→°F and wind speed knots→mph. -/
theorem decode_unit_conversion_example :
    ∃ v : MdaValues, decodeWimda mdaFrameEx = some v ∧
      |v.barometer - 2992 / 100| ≤ 1 / 1000 ∧
      |v.outTemp - 68| ≤ 1 / 1000 ∧
      |v.outHumidity - 55| ≤ 1 / 1000 ∧
      |v.windDir - 180| ≤ 1 / 1000 ∧
      |v.windSpeed - 115078 / 10000| ≤ 1 / 1000 := by
  refine ⟨mdaValuesEx, decodeWimda_mdaFrameEx, ?_, ?_, ?_, ?_, ?_⟩ <;>
    norm_num [abs_le, mdaValuesEx, degCtoF, knotToMph]

/-- Claim C7 (confirmed): no partial records.  If any required field of the
comma-split frame (the pressure, temperature, humidity, wind-direction or
wind-speed position) is present but fails numeric parsing — the empty
string, or any non-numeric token — the decode fails as a whole: no
measurement record is produced at all. -/
theorem decode_no_partial_record (frame : List Char) (i : ℕ) (tok : List Char)
    (hi : i ∈ [1, 5, 9, 13, 17])
    (htok : (splitOnComma frame).get? i = some tok)
    (hfail : parseDecimal tok = none) :
    decodeWimda frame = none := by
  unfold decodeWimda
  by_cases htag : (splitOnComma frame).get? 0 = some wimdaTag
  · rw [if_pos htag]
    have hbind : ((splitOnComma frame).get? i).bind parseDecimal = none := by
      rw [htok, Option.some_bind, hfail]
    fin_cases hi <;> rw [hbind] <;> split <;> simp_all
  · rw [if_neg htag]

/-- Claim C7 witness: a frame whose temperature field (position 5) is the
empty string decodes to nothing. -/
theorem decode_no_partial_record_witness :
    decodeWimda
      ("$WIMDA,29.92,I,1.0132,B,,C,,C,55.0,,,C,180.0,T,,M,10.0,N,,M".toList) =
      none :=
  decode_no_partial_record
    ("$WIMDA,29.92,I,1.0132,B,,C,,C,55.0,,,C,180.0,T,,M,10.0,N,,M".toList)
    5 [] (by decide) (by decide) (by decide)

/-- Claim C8 (corrected), counterexample: a transport error does not end or
escape the read loop.  With a serial error followed by a good chunk, the
loop still yields the packet decoded from the later chunk: the
`SerialException` was caught by the loop's `except` clause and the read
retried, not propagated to the caller. -/
theorem transport_error_cex :
    genLoopAux 0 [] [ReadEvent.serialError, ReadEvent.chunk wimdaChunkEx] =
        [mkLoopPacket 0 mdaValuesEx] ∧
      genLoopAux 0 [] [ReadEvent.serialError, ReadEvent.chunk wimdaChunkEx] ≠
        [] := by
  have h : genLoopAux 0 [] [ReadEvent.serialError, ReadEvent.chunk wimdaChunkEx] =
      [mkLoopPacket 0 mdaValuesEx] := by
    rw [genLoopAux]
    exact genLoopAux_chunkEx 0
  exact ⟨h, by rw [h]; simp [mkLoopPacket]⟩

/-- Claim C8 (amended): `SerialException` from the byte source is caught
inside `genLoopPackets`' loop and swallowed: any run of consecutive
transport errors discards the partial local buffer and processing continues
with the remaining reads as if freshly started; nothing reaches the
caller. -/
theorem serial_error_swallowed (now : ℤ) (buf : List Char) (k : ℕ)
    (es : List ReadEvent) (hk : 1 ≤ k) :
    genLoopAux now buf (List.replicate k ReadEvent.serialError ++ es) =
      genLoopAux now [] es := by
  induction k generalizing buf with
  | zero => exact absurd hk (by omega)
  | succ n ih =>
    rw [List.replicate_succ, List.cons_append, genLoopAux]
    cases n with
    | zero => rw [List.replicate_zero, List.nil_append]
    | succ m => exact ih [] (Nat.succ_le_succ (Nat.zero_le m))

/-- Claim C8 witness: two consecutive serial errors before a good chunk
leave the loop processing the chunk from a fresh state. -/
theorem serial_error_swallowed_witness :
    genLoopAux 0 ("junk".toList)
        (List.replicate 2 ReadEvent.serialError ++
          [ReadEvent.chunk wimdaChunkEx]) =
      genLoopAux 0 [] [ReadEvent.chunk wimdaChunkEx] :=
  serial_error_swallowed 0 ("junk".toList) 2 [ReadEvent.chunk wimdaChunkEx]
    (by decide)

theorem genLoopAux_mem_shape (now : ℤ) (buf : List Char) (es : List ReadEvent)
    (pkt : List (String × PVal)) (h : pkt ∈ genLoopAux now buf es) :
    ∃ v : MdaValues, pkt = mkLoopPacket now v := by
  induction es generalizing buf with
  | nil => simp [genLoopAux] at h
  | cons e es ih =>
    cases e with
    | serialError =>
      rw [genLoopAux] at h
      exact ih [] h
    | chunk c =>
      rw [genLoopAux] at h
      cases hf : findFrame (buf ++ stripNul c) with
      | none =>
        rw [hf] at h
        exact ih _ h
      | some f =>
        rw [hf] at h
        have h2 : pkt ∈ (match decodeWimda f with
            | none => genLoopAux now [] es
            | some v => mkLoopPacket now v :: genLoopAux now [] es) := h
        cases hd : decodeWimda f with
        | none =>
          rw [hd] at h2
          exact ih [] h2
        | some v =>
          rw [hd] at h2
          rcases List.mem_cons.mp h2 with h1 | h1
          · exact ⟨v, h1⟩
          · exact ih [] h1

/-- Claim C9 (confirmed): every packet yielded by the loop is a mapping with
exactly the seven keys usUnits, dateTime, barometer, outTemp, windSpeed,
windDir, outHumidity (in insertion order); usUnits always holds the US
unit-system constant, dateTime the integer timestamp, and each of the five
measurement entries holds a floating-point value. -/
theorem loop_packet_shape (now : ℤ) (es : List ReadEvent)
    (pkt : List (String × PVal)) (h : pkt ∈ genLoopAux now [] es) :
    ∃ v : MdaValues,
      pkt.map Prod.fst =
        ["usUnits", "dateTime", "barometer", "outTemp", "windSpeed",
          "windDir", "outHumidity"] ∧
      pkt.map Prod.snd =
        [PVal.i weewxUS, PVal.i now, PVal.f v.barometer, PVal.f v.outTemp,
          PVal.f v.windSpeed, PVal.f v.windDir, PVal.f v.outHumidity] := by
  obtain ⟨v, rfl⟩ := genLoopAux_mem_shape now [] es pkt h
  exact ⟨v, rfl, rfl⟩

/-- Claim C9 witness: the packet yielded for the example chunk has the
stated shape. -/
theorem loop_packet_shape_witness :
    ∃ v : MdaValues,
      (mkLoopPacket 0 mdaValuesEx).map Prod.fst =
        ["usUnits", "dateTime", "barometer", "outTemp", "windSpeed",
          "windDir", "outHumidity"] ∧
      (mkLoopPacket 0 mdaValuesEx).map Prod.snd =
        [PVal.i weewxUS, PVal.i 0, PVal.f v.barometer, PVal.f v.outTemp,
          PVal.f v.windSpeed, PVal.f v.windDir, PVal.f v.outHumidity] :=
  loop_packet_shape 0 [ReadEvent.chunk wimdaChunkEx] (mkLoopPacket 0 mdaValuesEx)
    (by rw [genLoopAux_chunkEx 0]; exact List.mem_singleton.mpr rfl)

/-- Claim C10 (confirmed): closePort is idempotent.  The first call closes
the open handle (close() is invoked exactly when a handle is present) and
sets it to None; a call on the already-closed state invokes nothing and
leaves the state unchanged, so closePort composed with itself equals a
single closePort. -/
theorem closePort_idempotent {α : Type} (s : Option α) :
    (closePort s).1 = none ∧
      closePort (closePort s).1 = ((closePort s).1, false) ∧
      (closePort (closePort s).1).1 = (closePort s).1 := by
  cases s <;> simp [closePort]
